import Mathlib

set_option maxHeartbeats 1000000
set_option maxRecDepth 4000

/-!
Shallow embedding of the tiny-ssb update proof-of-concept.

Part 1 models the line-diff codec of update_poc/poc/version_util.py:
texts are split on newline characters, a change is a tuple of a line
number, an operation string ("I" or "D") and a line content, and
apply_changes replays the changes over the line list with Python list
insert and del semantics.  Fallible Python operations (del on an index
that is out of range, bytes decode errors) are modelled with Option.
-/

namespace TinySSB

/-- A diff change: line number, operation ("I" or "D"), line content.
Mirrors the tuples built by version_util.get_changes. -/
abbrev Change := Nat × String × String

/-- Python str.split("\n") on the character list of a string.
The result is always non-empty; the empty string splits to [[]]. -/
def splitNl : List Char → List (List Char)
  | [] => [[]]
  | c :: cs =>
    match splitNl cs with
    | [] => []
    | r :: rs => if c = '\n' then [] :: r :: rs else (c :: r) :: rs

/-- Python "\n".join over character lists. -/
def joinNl : List (List Char) → List Char
  | [] => []
  | [l] => l
  | l :: ls => l ++ '\n' :: joinNl ls

/-- content.split("\n") at the String level. -/
def splitLines (s : String) : List String :=
  (splitNl s.data).map (fun l => ⟨l⟩)

/-- "\n".join(lines) at the String level. -/
def joinLines (ls : List String) : String :=
  ⟨joinNl (ls.map String.data)⟩

/-- Trailing part of version_util.get_changes: remaining new lines are
inserted at the end, with the line number incremented per insert. -/
def trailingIns : List String → Nat → List Change
  | [], _ => []
  | l :: ls, line_num => (line_num, "I", l) :: trailingIns ls (line_num + 1)

/-- The main loop of version_util.get_changes over the two line queues.
When the new queue is exhausted, the remaining old lines are emitted as
deletions at a fixed line number (the trailing delete loop of the
source).  Inside the loop: equal heads advance the line number, an old
head that does not occur in the remaining new lines is deleted (the new
head is pushed back), otherwise the new head is inserted (the old head
is pushed back). -/
def getChangesAux : List String → List String → Nat → List Change
  | [], new_lines, line_num => trailingIns new_lines line_num
  | old_l :: old_lines, [], line_num =>
      (line_num, "D", old_l) :: getChangesAux old_lines [] line_num
  | old_l :: old_lines, new_l :: new_lines, line_num =>
      if old_l = new_l then
        getChangesAux old_lines new_lines (line_num + 1)
      else if old_l ∉ new_lines then
        (line_num, "D", old_l) :: getChangesAux old_lines (new_l :: new_lines) line_num
      else
        (line_num, "I", new_l) :: getChangesAux (old_l :: old_lines) new_lines (line_num + 1)
termination_by old new _ => old.length + new.length
decreasing_by all_goals (simp only [List.length_cons]; omega)

/-- version_util.get_changes. -/
def get_changes (old_version new_version : String) : List Change :=
  getChangesAux (splitLines old_version) (splitLines new_version) 1

/-- Python list.insert(i, x): a negative index counts from the end and
is clamped at 0; an index beyond the length appends. -/
def pyInsert (lines : List String) (i : Int) (content : String) : List String :=
  let i' : Int := if i < 0 then i + lines.length else i
  let j : Nat := (min (max i' 0) (lines.length : Int)).toNat
  lines.take j ++ content :: lines.drop j

/-- Python del lines[i]: a negative index counts from the end; an index
that is out of range raises IndexError, modelled as none. -/
def pyDelete (lines : List String) (i : Int) : Option (List String) :=
  let i' : Int := if i < 0 then i + lines.length else i
  if 0 ≤ i' ∧ i' < (lines.length : Int) then
    some (lines.take i'.toNat ++ lines.drop (i'.toNat + 1))
  else none

/-- One iteration of the loop in version_util.apply_changes: the line
number is shifted to a 0-based index, an "I" operation inserts and a
"D" operation deletes. -/
def applyOne (lines : List String) (change : Change) : Option (List String) :=
  let (line_num, op, content) := change
  let idx : Int := (line_num : Int) - 1
  let lines1 := if op = "I" then pyInsert lines idx content else lines
  if op = "D" then pyDelete lines1 idx else some lines1

/-- The loop of version_util.apply_changes over the line list. -/
def applyLines : List String → List Change → Option (List String)
  | lines, [] => some lines
  | lines, change :: rest =>
    match applyOne lines change with
    | none => none
    | some lines1 => applyLines lines1 rest

/-- version_util.apply_changes.  Returns none when a delete index is
out of range (Python raises IndexError there). -/
def apply_changes (content : String) (changes : List Change) : Option String :=
  (applyLines (splitLines content) changes).map joinLines

/-- The per-change swap inside version_util.reverse_changes: a "D"
becomes an "I" and anything else becomes a "D". -/
def flipChange (c : Change) : Change :=
  if c.2.1 = "D" then (c.1, "I", c.2.2) else (c.1, "D", c.2.2)

/-- version_util.reverse_changes: swap "I" and "D" on every change,
then reverse the list order. -/
def reverse_changes (changes : List Change) : List Change :=
  (changes.map flipChange).reverse

/- Byte strings are modelled as lists of natural numbers below 256. -/

/-- int.to_bytes(4, "big").  Python raises OverflowError for values of
2^32 or more; this model truncates instead and the theorems that use it
carry the bound explicitly. -/
def toBytesBE4 (n : Nat) : List Nat :=
  [n / 16777216 % 256, n / 65536 % 256, n / 256 % 256, n % 256]

/-- int.from_bytes(bs, "big"). -/
def fromBytesBE (bs : List Nat) : Nat :=
  bs.foldl (fun acc b => acc * 256 + b) 0

/-- Modelled from the spec: ssb_util.to_var_int is not under src/ and
the spec (4.1) fixes only the interface of the varint codec.  Standard
base-128 varint: little-endian 7-bit groups, a continuation bit on
every byte but the last. -/
def to_var_int (n : Nat) : List Nat :=
  if n < 128 then [n] else (n % 128 + 128) :: to_var_int (n / 128)
decreasing_by exact Nat.div_lt_self (by omega) (by omega)

/-- Modelled from the spec: ssb_util.from_var_int, the inverse of
to_var_int; returns the decoded value together with the number of
consumed bytes, none on empty or truncated input. -/
def from_var_int : List Nat → Option (Nat × Nat)
  | [] => none
  | b :: bs =>
    if b < 128 then some (b, 1)
    else
      match from_var_int bs with
      | none => none
      | some (v, used) => some (b % 128 + 128 * v, used + 1)

/-- UTF-8 encoding of a single character (Python str.encode, one
character at a time). -/
def utf8EncodeChar (c : Char) : List Nat :=
  let n := c.toNat
  if n < 128 then [n]
  else if n < 2048 then [192 + n / 64, 128 + n % 64]
  else if n < 65536 then [224 + n / 4096, 128 + n / 64 % 64, 128 + n % 64]
  else [240 + n / 262144, 128 + n / 4096 % 64, 128 + n / 64 % 64, 128 + n % 64]

/-- UTF-8 encoding of a character list. -/
def utf8EncodeList : List Char → List Nat
  | [] => []
  | c :: cs => utf8EncodeChar c ++ utf8EncodeList cs

/-- Python str.encode(): the UTF-8 bytes of a string. -/
def utf8Encode (s : String) : List Nat :=
  utf8EncodeList s.data

/-- Codepoint assembled from a 2-byte UTF-8 sequence. -/
def utf8Val2 (b b1 : Nat) : Nat := (b - 192) * 64 + (b1 - 128)

/-- Codepoint assembled from a 3-byte UTF-8 sequence. -/
def utf8Val3 (b b1 b2 : Nat) : Nat := (b - 224) * 4096 + (b1 - 128) * 64 + (b2 - 128)

/-- Codepoint assembled from a 4-byte UTF-8 sequence. -/
def utf8Val4 (b b1 b2 b3 : Nat) : Nat :=
  (b - 240) * 262144 + (b1 - 128) * 4096 + (b2 - 128) * 64 + (b3 - 128)

/-- A UTF-8 continuation byte. -/
def IsCont (b : Nat) : Prop := 128 ≤ b ∧ b < 192

instance (b : Nat) : Decidable (IsCont b) := by unfold IsCont; infer_instance

/-- Well-formedness of a 3-byte sequence: continuation bytes, no
overlong encoding, no surrogate codepoint. -/
def Ok3 (b b1 b2 : Nat) : Prop :=
  IsCont b1 ∧ IsCont b2 ∧ 2048 ≤ utf8Val3 b b1 b2 ∧
    (utf8Val3 b b1 b2 < 55296 ∨ 57344 ≤ utf8Val3 b b1 b2)

instance (b b1 b2 : Nat) : Decidable (Ok3 b b1 b2) := by unfold Ok3; infer_instance

/-- Well-formedness of a 4-byte sequence: continuation bytes, no
overlong encoding, codepoint at most 0x10FFFF. -/
def Ok4 (b b1 b2 b3 : Nat) : Prop :=
  IsCont b1 ∧ IsCont b2 ∧ IsCont b3 ∧ 65536 ≤ utf8Val4 b b1 b2 b3 ∧
    utf8Val4 b b1 b2 b3 < 1114112

instance (b b1 b2 b3 : Nat) : Decidable (Ok4 b b1 b2 b3) := by unfold Ok4; infer_instance

/-- Decode one UTF-8 scalar whose lead byte is b and whose following
bytes are bs: the character and how many bytes of bs it consumed, none
on malformed input (stray continuation byte, bad lead byte, truncated
sequence, overlong form, surrogate, codepoint beyond 0x10FFFF). -/
def utf8Step (b : Nat) (bs : List Nat) : Option (Char × Nat) :=
  if b < 128 then some (Char.ofNat b, 0)
  else if b < 194 then none
  else if b < 224 then
    match bs with
    | b1 :: _ => if IsCont b1 then some (Char.ofNat (utf8Val2 b b1), 1) else none
    | [] => none
  else if b < 240 then
    match bs with
    | b1 :: b2 :: _ => if Ok3 b b1 b2 then some (Char.ofNat (utf8Val3 b b1 b2), 2) else none
    | _ => none
  else if b < 245 then
    match bs with
    | b1 :: b2 :: b3 :: _ =>
      if Ok4 b b1 b2 b3 then some (Char.ofNat (utf8Val4 b b1 b2 b3), 3) else none
    | _ => none
  else none

/-- Strict UTF-8 decoding of a byte list to a character list, none on
malformed input (Python bytes.decode raises UnicodeDecodeError). -/
def utf8DecodeList : List Nat → Option (List Char)
  | [] => some []
  | b :: bs =>
    match utf8Step b bs with
    | none => none
    | some (c, k) => (utf8DecodeList (bs.drop k)).map (fun cs => c :: cs)
termination_by l => l.length
decreasing_by simp only [List.length_drop, List.length_cons]; omega

/-- Python bytes.decode() producing a String. -/
def utf8Decode (bs : List Nat) : Option String :=
  match utf8DecodeList bs with
  | none => none
  | some cs => some ⟨cs⟩

/-- One encoded change record of version_util.changes_to_bytes:
varint line number, operation bytes, UTF-8 line content. -/
def encChange (c : Change) : List Nat :=
  to_var_int c.1 ++ utf8Encode c.2.1 ++ utf8Encode c.2.2

/-- The encoding loop of version_util.changes_to_bytes: every record is
preceded by a varint holding its length. -/
def encChanges : List Change → List Nat
  | [] => []
  | c :: cs => to_var_int (encChange c).length ++ encChange c ++ encChanges cs

/-- version_util.changes_to_bytes: 4 big-endian dependency bytes, then
the length-prefixed change records. -/
def changes_to_bytes (changes : List Change) (dependency : Nat) : List Nat :=
  toBytesBE4 dependency ++ encChanges changes

/-- Decoding of one change record inside version_util.bytes_to_changes:
varint line number, one operation byte read back through chr(), and the
UTF-8 remainder.  A missing operation byte (IndexError) or an invalid
UTF-8 remainder is an exception, modelled as none. -/
def decChange (change : List Nat) : Option Change :=
  match from_var_int change with
  | none => none
  | some (line_num, num_b) =>
    match change.get? num_b with
    | none => none
    | some opByte =>
      match utf8Decode (change.drop (num_b + 1)) with
      | none => none
      | some s => some (line_num, ⟨[Char.ofNat opByte]⟩, s)

/-- The while loop of version_util.bytes_to_changes: read a varint
record length, slice off the record, decode it, repeat. -/
def parseOps : List Nat → Option (List Change)
  | [] => some []
  | b :: bs =>
    match h : from_var_int (b :: bs) with
    | none => none
    | some (size, size_b) =>
      match decChange (((b :: bs).drop size_b).take size) with
      | none => none
      | some c =>
        match parseOps (((b :: bs).drop size_b).drop size) with
        | none => none
        | some cs => some (c :: cs)
termination_by l => l.length
decreasing_by
  have hpos : 1 ≤ size_b := by
    rw [from_var_int] at h
    by_cases hb : b < 128
    · rw [if_pos hb] at h
      simp at h
      omega
    · rw [if_neg hb] at h
      rcases h2 : from_var_int bs with _ | ⟨v, used⟩
      · rw [h2] at h
        simp at h
      · rw [h2] at h
        simp at h
        omega
  simp only [List.length_drop, List.length_cons]
  omega

/-- version_util.bytes_to_changes: 4 dependency bytes, then the change
records. -/
def bytes_to_changes (changes : List Nat) : Option (List Change × Nat) :=
  let dependency := fromBytesBE (changes.take 4)
  match parseOps (changes.drop 4) with
  | none => none
  | some operations => some (operations, dependency)

/-- The operation of a change is a single ASCII character.  Under this
hypothesis the single operation byte written by changes_to_bytes is
read back intact by chr() in bytes_to_changes. -/
def asciiOpB (c : Change) : Bool :=
  match c.2.1.data with
  | [a] => a.toNat < 128
  | _ => false

/- Version DAG layer (version_util.py): takewhile, extract_version_tree,
_dfs and jump_versions.  A Feed appears in this layer only through the
accessors get_upd_version, get_current_version_num, get_update_blob and
get_parent (spec section 6).  A feed together with its chain of parents
is modelled as a list of accessor records: the head is the feed handed
to the functions, each later entry is the parent of the one before
(get_parent composed with feed_manager.get_feed); an exhausted list is
a feed without parent.  A cyclic parent chain, on which the Python loop
would not terminate, is not representable in this model.  Python dicts
are modelled as association lists with insertion-order semantics:
assigning a fresh key appends, assigning an existing key updates in
place. -/

/-- Modelled from the spec: the version accessors a Feed offers the
version layer (get_upd_version, get_current_version_num and
get_update_blob are external to version_util.py). -/
structure UpdFeed where
  upd_version : Option Nat
  current_version_num : Option Nat
  update_blob : Nat → List Nat

/-- Python dict lookup for the access dict (version to feed). -/
def dictGetF (d : List (Nat × UpdFeed)) (k : Nat) : Option UpdFeed :=
  match d.find? (fun p => p.1 == k) with
  | none => none
  | some p => some p.2

/-- Python dict assignment for the access dict. -/
def dictSetF (d : List (Nat × UpdFeed)) (k : Nat) (v : UpdFeed) : List (Nat × UpdFeed) :=
  if (d.find? (fun p => p.1 == k)).isSome then
    d.map (fun p => if p.1 == k then (k, v) else p)
  else d ++ [(k, v)]

/-- Python dict lookup for the adjacency dict (version to neighbours). -/
def dictGet (d : List (Nat × List Nat)) (k : Nat) : Option (List Nat) :=
  match d.find? (fun p => p.1 == k) with
  | none => none
  | some p => some p.2

/-- Python dict assignment for the adjacency dict. -/
def dictSet (d : List (Nat × List Nat)) (k : Nat) (v : List Nat) : List (Nat × List Nat) :=
  if (d.find? (fun p => p.1 == k)).isSome then
    d.map (fun p => if p.1 == k then (k, v) else p)
  else d ++ [(k, v)]

/-- version_util.takewhile: keep elements while the predicate holds of
the remaining suffix (the source applies the predicate to lst[i:] and
collects lst[i]). -/
def takewhile (p : List Nat → Bool) : List Nat → List Nat
  | [] => []
  | x :: xs => if p (x :: xs) then x :: takewhile p xs else []

/-- The first loop of version_util.extract_version_tree: walk the
parent chain, record the owning feed for every version in the feed
range, track the running maximum version (it starts at -1). -/
def extractLoop : List UpdFeed → List (Nat × UpdFeed) → Int → List (Nat × UpdFeed) × Int
  | [], access, maxv => (access, maxv)
  | f :: parents, access, maxv =>
    match f.upd_version with
    | none => (access, maxv)
    | some minv =>
      match f.current_version_num with
      | none => (access, maxv)
      | some mv =>
        let access2 := (List.range' minv (mv + 1 - minv)).foldl (fun a i => dictSetF a i f) access
        extractLoop parents access2 (max (mv : Int) maxv)

/-- The undirected edge i - dep added as the two dict updates of
extract_version_tree. -/
def addEdge (tree : List (Nat × List Nat)) (i dep : Nat) : List (Nat × List Nat) :=
  let t1 :=
    match dictGet tree i with
    | some l => dictSet tree i (l ++ [dep])
    | none => dictSet tree i [dep]
  match dictGet t1 dep with
  | some l => dictSet t1 dep (l ++ [i])
  | none => dictSet t1 dep [i]

/-- The second loop of extract_version_tree: for every version in
range(1, max_version + 1) read the update blob through the access dict
(a missing version raises KeyError, modelled as none), take the
dependency from its first 4 bytes, add the undirected edge. -/
def buildTree (access : List (Nat × UpdFeed)) :
    List Nat → List (Nat × List Nat) → Option (List (Nat × List Nat))
  | [], tree => some tree
  | i :: rest, tree =>
    match dictGetF access i with
    | none => none
    | some f => buildTree access rest (addEdge tree i (fromBytesBE ((f.update_blob i).take 4)))

/-- version_util.extract_version_tree over the modelled parent chain. -/
def extract_version_tree (feeds : List UpdFeed) :
    Option (List (Nat × List Nat) × List (Nat × UpdFeed)) :=
  let (access, maxv) := extractLoop feeds [] (-1)
  match buildTree access (List.range' 1 maxv.toNat) [] with
  | none => none
  | some tree => some (tree, access)

/-- Largest key of the adjacency dict (max() in Python; the empty case
is guarded by the callers). -/
def maxKey (d : List (Nat × List Nat)) : Nat :=
  (d.map (fun p => p.1)).foldl max 0

/-- Largest key of the access dict. -/
def maxKeyF (d : List (Nat × UpdFeed)) : Nat :=
  (d.map (fun p => p.1)).foldl max 0

/-- The for loop over the neighbours inside version_util._dfs: extend
the popped path by every unvisited neighbour, marking it visited; an
out-of-range neighbour index raises IndexError in Python, modelled as
none. -/
def enqueue (path : List Nat) (ns : List Nat) (visited : List Bool)
    (queue : List (List Nat)) : Option (List Bool × List (List Nat)) :=
  match ns with
  | [] => some (visited, queue)
  | n :: rest =>
    match visited.get? n with
    | none => none
    | some true => enqueue path rest visited queue
    | some false => enqueue path rest (visited.set n true) (queue ++ [path ++ [n]])

/-- The while loop of version_util._dfs (a BFS).  The Python loop needs
no fuel: every iteration pops one path, and a path is only enqueued
together with marking a previously unvisited node, so the loop runs at
most (number of nodes) + 2 times; dfs below passes exactly that bound
as fuel, which only makes the recursion structural.  Exhausted fuel is
unreachable and modelled as none. -/
def dfsLoop (graph : List (Nat × List Nat)) (endv : Nat) :
    Nat → List Bool → List (List Nat) → Option (List Nat)
  | _, _, [] => some []
  | 0, _, _ :: _ => none
  | fuel + 1, visited, path :: rest =>
    match path.getLast? with
    | none => none
    | some current =>
      if current = endv then some path
      else
        match dictGet graph current with
        | none => none
        | some ns =>
          match enqueue path ns visited rest with
          | none => none
          | some (v2, q2) => dfsLoop graph endv fuel v2 q2

/-- version_util._dfs: BFS from start to endv; the visited list is
indexed by node up to the largest key of the graph (max() of an empty
dict raises in Python, modelled as none). -/
def dfs (graph : List (Nat × List Nat)) (start endv : Nat) : Option (List Nat) :=
  match graph with
  | [] => none
  | _ :: _ =>
    let maxV := maxKey graph
    dfsLoop graph endv (maxV + 2) ((List.range (maxV + 1)).map (fun i => i == start)) [[start]]

/-- mono_inc of version_util.jump_versions. -/
def monoInc (lst : List Nat) : Bool :=
  (lst.zip lst.tail).all (fun p => p.1 < p.2)

/-- mono_dec of version_util.jump_versions. -/
def monoDec (lst : List Nat) : Bool :=
  (lst.zip lst.tail).all (fun p => p.2 < p.1)

/-- The forward collection loop of jump_versions: decode the update
blob of every step and concatenate the changes. -/
def collectFwd (access : List (Nat × UpdFeed)) : List Nat → Option (List Change)
  | [] => some []
  | s :: steps =>
    match dictGetF access s with
    | none => none
    | some f =>
      match bytes_to_changes (f.update_blob s) with
      | none => none
      | some (cs, _) =>
        match collectFwd access steps with
        | none => none
        | some acc => some (cs ++ acc)

/-- The reverting collection loop of jump_versions: decode every
update blob and concatenate the reversed changes. -/
def collectRev (access : List (Nat × UpdFeed)) : List Nat → Option (List Change)
  | [] => some []
  | s :: steps =>
    match dictGetF access s with
    | none => none
    | some f =>
      match bytes_to_changes (f.update_blob s) with
      | none => none
      | some (cs, _) =>
        match collectRev access steps with
        | none => none
        | some acc => some (reverse_changes cs ++ acc)

/-- version_util.jump_versions over the modelled feed chain.  A
monotonically increasing path drops its first element, a decreasing one
its last; a mixed path is split with takewhile on not mono_inc, the
pivot element after the first half is skipped, the first half is
reverted and the second half applied. -/
def jump_versions (start endv : Nat) (feeds : List UpdFeed) : Option (List Change) :=
  if start = endv then some []
  else
    match extract_version_tree feeds with
    | none => none
    | some (neighbors, access) =>
      match access with
      | [] => none
      | _ :: _ =>
        let max_version := maxKeyF access
        if start > max_version ∨ endv > max_version then some []
        else
          match dfs neighbors start endv with
          | none => none
          | some update_path =>
            if monoInc update_path then
              match update_path with
              | [] => none
              | _ :: tl => collectFwd access tl
            else if monoDec update_path then
              collectRev access update_path.dropLast
            else
              let first_half := takewhile (fun l => ! monoInc l) update_path
              let second_half := update_path.drop (first_half.length + 1)
              match collectRev access first_half with
              | none => none
              | some r =>
                match collectFwd access second_half with
                | none => none
                | some f2 => some (r ++ f2)

/- Scenario S5 of the spec, used by claim C2: feed F1 owns versions
1-3, its parent F2 owns versions 4-6, the dependencies are 1 on 0, 2 on
1, 3 on 2, 4 on 1, 5 on 4, 6 on 5 (adjacency 0-1, 1-2, 2-3, 1-4, 4-5,
5-6). -/

/-- The update diff stored for version v in the scenario. -/
def demoChanges (v : Nat) : List Change := [(v, "I", "v")]

/-- The dependency of version v in the scenario. -/
def demoDep (v : Nat) : Nat :=
  match v with
  | 2 => 1
  | 3 => 2
  | 4 => 1
  | 5 => 4
  | 6 => 5
  | _ => 0

/-- The encoded update blob of version v in the scenario. -/
def demoBlob (v : Nat) : List Nat := changes_to_bytes (demoChanges v) (demoDep v)

/-- Feed F1, owning versions 1-3. -/
def demoF1 : UpdFeed := ⟨some 1, some 3, demoBlob⟩

/-- Feed F2, the parent of F1, owning versions 4-6. -/
def demoF2 : UpdFeed := ⟨some 4, some 6, demoBlob⟩

/-- The chain F1, parent F2. -/
def demoChain : List UpdFeed := [demoF1, demoF2]

/-- The access dict the scenario produces. -/
def demoAccess : List (Nat × UpdFeed) :=
  [(1, demoF1), (2, demoF1), (3, demoF1), (4, demoF2), (5, demoF2), (6, demoF2)]

/-- The adjacency dict the scenario produces. -/
def demoTree : List (Nat × List Nat) :=
  [(1, [0, 2, 4]), (0, [1]), (2, [1, 3]), (3, [2]), (4, [1, 5]), (5, [4, 6]), (6, [5])]

/- Feed layer (src/feed.py).  The .log file is a byte list; the packet
codec (packet.py) is an external collaborator modelled from the spec as
an abstract record of its three entry points; exceptions are modelled
with Except and Option. -/

/-- Modelled from the spec: the packet kinds of packet.PacketType; the
named kinds of section 3 plus a stand-in for any further kind an older
reader skips. -/
inductive PacketType where
  | plain48
  | chain20
  | ischild
  | iscontn
  | mkchild
  | contdas
  | other
deriving DecidableEq

/-- Modelled from the spec: a sidecar blob (packet.Blob): 100-byte
payload, 20-byte next pointer, the opaque 20-byte signature that
addresses it, and the 120-byte wire image written to its file. -/
structure BlobRec where
  payload : List Nat
  ptr : List Nat
  signature : List Nat
  wire : List Nat
deriving DecidableEq

/-- Modelled from the spec: the typed packet the codec produces:
pkt_type, 48-byte payload, 20-byte message ID, 120-byte wire image. -/
structure Pkt where
  pkt_type : PacketType
  payload : List Nat
  mid : List Nat
  wire : List Nat
deriving DecidableEq

/-- Modelled from the spec: the packet codec collaborator (packet.py).
pkt_from_bytes parses and verifies a frame (failure raises, modelled as
none); mkPacket is the Packet constructor for plain packets;
create_chain builds a chain20 head packet and its tail blobs. -/
structure Codec where
  pkt_from_bytes : List Nat → List Nat → List Nat → List Nat → Option Pkt
  mkPacket : List Nat → List Nat → List Nat → List Nat → Option Pkt
  create_chain : List Nat → List Nat → List Nat → List Nat → Option Pkt × List BlobRec

/-- The in-memory Feed state of feed.py together with its .log file
bytes: the header fields parsed in Feed.__init__ and the mids cache.
The parent_id, parent_seq and anchor_mid header fields take no part in
the claims below and are omitted. -/
structure FeedSt where
  fid : List Nat
  anchor_seq : Nat
  front_seq : Nat
  front_mid : List Nat
  mids : List (List Nat)
  file : List Nat
deriving DecidableEq

/-- The exceptions Feed.__getitem__ can raise: IndexError from the
bounds check or the mids lookup, OverflowError from seq.to_bytes, and
the error pkt_from_bytes raises on a frame that does not verify. -/
inductive GetErr where
  | indexError
  | overflowError
  | codecError
deriving DecidableEq

/-- Feed.__getitem__: remap a negative index to front_seq + seq + 1,
raise IndexError outside (anchor_seq, front_seq], read the 128-byte
frame at the relative sequence, cut the 8 reserved bytes and parse with
the codec against the cached previous message ID.  The source encodes
seq with to_bytes before indexing the mids cache, so the overflow check
comes first. -/
def getitem (c : Codec) (st : FeedSt) (i : Int) : Except GetErr Pkt :=
  let seq : Int := if i < 0 then (st.front_seq : Int) + i + 1 else i
  if seq > (st.front_seq : Int) ∨ seq ≤ (st.anchor_seq : Int) then .error .indexError
  else
    let relative_seq := (seq - st.anchor_seq).toNat
    let raw_pkt := ((st.file.drop (128 * relative_seq)).take 128).drop 8
    if seq.toNat ≥ 4294967296 then .error .overflowError
    else
      match st.mids.get? (relative_seq - 1) with
      | none => .error .indexError
      | some prev_mid =>
        match c.pkt_from_bytes st.fid (toBytesBE4 seq.toNat) prev_mid raw_pkt with
        | none => .error .codecError
        | some pkt => .ok pkt

/-- Feed.has_ended: false when len(self) = front_seq is below 1, else
compare the kind of the last packet against contdas; an exception while
reading the last packet propagates (none). -/
def hasEnded (c : Codec) (st : FeedSt) : Option Bool :=
  if st.front_seq < 1 then some false
  else
    match getitem c st (-1) with
    | .error _ => none
    | .ok pkt => some (pkt.pkt_type = PacketType.contdas)

/-- Feed._update_header: write front_seq and front_mid into bytes
[104..128) by substituting them in the whole file buffer.  The assert
on the 24-byte length and the OverflowError of to_bytes for a front_seq
of 2^32 or more are modelled as none. -/
def updateHeader (st : FeedSt) : Option FeedSt :=
  if st.front_seq ≥ 4294967296 then none
  else
    let new_info := toBytesBE4 st.front_seq ++ st.front_mid
    if new_info.length ≠ 24 then none
    else some { st with file := st.file.take 104 ++ new_info ++ st.file.drop 128 }

/-- Feed.append_pkt: refuse on an ended feed or a missing packet (both
return False), append 8 reserved zero bytes and the 120-byte wire at
the end of the file (the assert on 128 bytes modelled as none), bump
front_seq, set front_mid, rewrite the header, extend the mids cache. -/
def append_pkt (c : Codec) (st : FeedSt) (pkt? : Option Pkt) : Option (Bool × FeedSt) :=
  match hasEnded c st with
  | none => none
  | some true => some (false, st)
  | some false =>
    match pkt? with
    | none => some (false, st)
    | some pkt =>
      let payload := List.replicate 8 0 ++ pkt.wire
      if payload.length ≠ 128 then none
      else
        let st1 : FeedSt :=
          { st with file := st.file ++ payload,
                    front_seq := st.front_seq + 1, front_mid := pkt.mid }
        match updateHeader st1 with
        | none => none
        | some st2 => some (true, { st2 with mids := st.mids ++ [pkt.mid] })

/-- Feed.append_bytes: construct a plain packet for the next sequence
number through the codec (to_bytes overflow modelled as none), return
False when the constructor yields nothing, else delegate to
append_pkt. -/
def append_bytes (c : Codec) (st : FeedSt) (payload : List Nat) : Option (Bool × FeedSt) :=
  if st.front_seq + 1 ≥ 4294967296 then none
  else
    match c.mkPacket st.fid (toBytesBE4 (st.front_seq + 1)) st.front_mid payload with
    | none => some (false, st)
    | some pkt => append_pkt c st (some pkt)

/-- Feed._write_blob over a modelled blob directory: the directory is
the list of written files as signature-to-wire pairs, and writeFails
names the writes on which the file system raises; a raising write
aborts the loop and returns False, as in the source. -/
def write_blob (writeFails : List Nat → Bool) :
    List BlobRec → List (List Nat × List Nat) → Bool × List (List Nat × List Nat)
  | [], files => (true, files)
  | b :: rest, files =>
    if writeFails b.signature then (false, files)
    else write_blob writeFails rest (files ++ [(b.signature, b.wire)])

/-- Feed.append_blob: build the chain head packet and its blobs through
the codec, return False when the head packet is missing, append the
head packet DISCARDING the result of append_pkt, then write the blobs
and return only the result of _write_blob, as the source does. -/
def append_blob (c : Codec) (st : FeedSt) (writeFails : List Nat → Bool)
    (files : List (List Nat × List Nat)) (payload : List Nat) :
    Option (Bool × FeedSt × List (List Nat × List Nat)) :=
  if st.front_seq + 1 ≥ 4294967296 then none
  else
    match c.create_chain st.fid (toBytesBE4 (st.front_seq + 1)) st.front_mid payload with
    | (none, _) => some (false, st, files)
    | (some pkt, blobs) =>
      match append_pkt c st (some pkt) with
      | none => none
      | some (_, st2) =>
        let r := write_blob writeFails blobs files
        some (r.1, st2, r.2)

/-- The pointer walk of Feed.get_blob_chain: follow the pointer from
the head payload through the store (Feed._get_blob composed with the
blob directory), collecting blobs until the all-zero pointer.  A
missing blob file raises in the source (blob.ptr on None), and Python
would loop forever on a cyclic chain; the walk therefore carries fuel,
and both events are modelled as none. -/
def collectBlobs (store : List Nat → Option BlobRec) : Nat → List Nat → Option (List BlobRec)
  | 0, _ => none
  | fuel + 1, ptr =>
    if ptr = List.replicate 20 0 then some []
    else
      match store ptr with
      | none => none
      | some b =>
        match collectBlobs store fuel b.ptr with
        | none => none
        | some bs => some (b :: bs)

/-- The check loop of Feed._verify_chain: at every blob the current
pointer must equal its signature, else the returned value is None (no
content); at the end the collected content is cut to size bytes. -/
def verifyLoop (size : Nat) : List Nat → List Nat → List BlobRec → Option (List Nat)
  | _, content, [] => some (content.take size)
  | ptr, content, b :: bs =>
    if ptr = b.signature then verifyLoop size b.ptr (content ++ b.payload) bs
    else none

/-- Feed._verify_chain: varint size from the head payload (a failure
there raises, so the outer Option is none), head content between the
varint and the final 20 pointer bytes, then the check loop; the inner
Option is the returned value. -/
def verify_chain (head_payload : List Nat) (blobs : List BlobRec) :
    Option (Option (List Nat)) :=
  match from_var_int head_payload with
  | none => none
  | some (size, num_bytes) =>
    some (verifyLoop size (head_payload.drop (head_payload.length - 20))
      ((head_payload.take (head_payload.length - 20)).drop num_bytes) blobs)

/-- Feed.get_blob_chain: assert the chain20 kind (modelled as none),
walk the chain collecting blobs, then verify. -/
def get_blob_chain (store : List Nat → Option BlobRec) (fuel : Nat) (pkt : Pkt) :
    Option (Option (List Nat)) :=
  if pkt.pkt_type ≠ PacketType.chain20 then none
  else
    match collectBlobs store fuel (pkt.payload.drop (pkt.payload.length - 20)) with
    | none => none
    | some blobs => verify_chain pkt.payload blobs

/-- Feed.get_contn: read the last packet through self[-1] (an exception
propagates), then return the first 32 payload bytes when its kind is
contdas and the value None otherwise. -/
def get_contn (c : Codec) (st : FeedSt) : Except GetErr (Option (List Nat)) :=
  match getitem c st (-1) with
  | .error e => .error e
  | .ok last_pkt =>
    if last_pkt.pkt_type ≠ PacketType.contdas then .ok none
    else .ok (some (last_pkt.payload.take 32))

/-- The blob chain reachable from a pointer: either the pointer is
all-zero and the chain is empty, or the store holds a blob at the
pointer and the chain continues from its next pointer. -/
inductive ChainFrom (store : List Nat → Option BlobRec) : List Nat → List BlobRec → Prop where
  | nil : ChainFrom store (List.replicate 20 0) []
  | cons {ptr : List Nat} {b : BlobRec} {bs : List BlobRec} :
      ptr ≠ List.replicate 20 0 → store ptr = some b → ChainFrom store b.ptr bs →
      ChainFrom store ptr (b :: bs)

/-- Every followed pointer equals the signature of the blob it reaches:
the condition Feed._verify_chain checks. -/
def ptrsMatch : List Nat → List BlobRec → Bool
  | _, [] => true
  | ptr, b :: bs => ptr == b.signature && ptrsMatch b.ptr bs

/-- Concatenation of the payloads of a blob chain. -/
def blobsPayload : List BlobRec → List Nat
  | [] => []
  | b :: bs => b.payload ++ blobsPayload bs

/- Concrete states and codec used by the witnesses below. -/

/-- A codec for the concrete witnesses: parsing yields a contdas packet
over the raw frame, the plain constructor and the chain constructor
return fixed packets, the chain constructor one fixed blob. -/
def endCodec : Codec :=
  ⟨fun _ _ _ raw => some ⟨PacketType.contdas, (raw.drop 8).take 48, List.replicate 20 5, raw⟩,
   fun _ _ _ payload => some ⟨PacketType.plain48, payload.take 48, List.replicate 20 6,
     List.replicate 120 1⟩,
   fun _ _ _ payload => (some ⟨PacketType.chain20, payload.take 48, List.replicate 20 7,
     List.replicate 120 2⟩,
     [⟨List.replicate 100 9, List.replicate 20 0, List.replicate 20 4, List.replicate 120 3⟩])⟩

/-- A concrete ended feed: anchor 0, front 1, one frame that endCodec
reads back as a contdas packet. -/
def endedSt : FeedSt :=
  ⟨List.replicate 32 1, 0, 1, List.replicate 20 5,
   [List.replicate 20 1, List.replicate 20 5],
   List.replicate 128 0 ++ List.replicate 128 2⟩

/-- A concrete fresh feed: anchor 0, front 0, only the header frame. -/
def freshSt : FeedSt :=
  ⟨List.replicate 32 1, 0, 0, List.replicate 20 1, [List.replicate 20 1],
   List.replicate 128 0⟩

/-- A concrete packet appended to the fresh feed by the C8 witness. -/
def freshPkt : Pkt :=
  ⟨PacketType.plain48, List.replicate 48 3, List.replicate 20 4, List.replicate 120 3⟩

/-- The feed state after the C8 witness append: front 1, the new frame
at the end, the header carrying the new front fields. -/
def freshSt2 : FeedSt :=
  ⟨List.replicate 32 1, 0, 1, List.replicate 20 4,
   [List.replicate 20 1, List.replicate 20 4],
   List.replicate 104 0 ++ ([0, 0, 0, 1] ++ List.replicate 20 4) ++
     (List.replicate 8 0 ++ List.replicate 120 3)⟩

/-- The chain20 head packet of the C3 witness: varint size 5, then 27
content bytes, then the all-zero pointer. -/
def chainPkt : Pkt :=
  ⟨PacketType.chain20, [5] ++ List.replicate 27 7 ++ List.replicate 20 0,
   List.replicate 20 8, List.replicate 120 8⟩

/- ===== end of definitions; theorems follow ===== -/

theorem splitNl_ne_nil (cs : List Char) : splitNl cs ≠ [] := by
  induction cs with
  | nil => simp [splitNl]
  | cons c cs ih =>
    simp only [splitNl]
    match h : splitNl cs with
    | [] => exact absurd h ih
    | r :: rs => by_cases hc : c = '\n' <;> simp [hc]

theorem joinNl_splitNl (cs : List Char) : joinNl (splitNl cs) = cs := by
  induction cs with
  | nil => simp [splitNl, joinNl]
  | cons c cs ih =>
    simp only [splitNl]
    match h : splitNl cs with
    | [] => exact absurd h (splitNl_ne_nil cs)
    | r :: rs =>
      rw [h] at ih
      by_cases hc : c = '\n'
      · subst hc
        simp only [if_pos rfl]
        cases rs with
        | nil => simpa [joinNl] using ih
        | cons r2 rs2 => simpa [joinNl] using ih
      · simp only [if_neg hc]
        cases rs with
        | nil => simpa [joinNl] using ih
        | cons r2 rs2 => simpa [joinNl] using ih

theorem joinLines_splitLines (s : String) : joinLines (splitLines s) = s := by
  unfold joinLines splitLines
  rw [List.map_map]
  have : (String.data ∘ fun l : List Char => (⟨l⟩ : String)) = id := by
    funext l; rfl
  rw [this, List.map_id, joinNl_splitNl]

theorem applyLines_append (cs ds : List Change) (lines : List String) :
    applyLines lines (cs ++ ds) =
      match applyLines lines cs with
      | none => none
      | some lines1 => applyLines lines1 ds := by
  induction cs generalizing lines with
  | nil => simp [applyLines]
  | cons c cs ih =>
    simp only [List.cons_append, applyLines]
    match h : applyOne lines c with
    | none => rfl
    | some lines1 => exact ih lines1

theorem applyOne_insert (pre b : List String) (x : String) :
    applyOne (pre ++ b) (pre.length + 1, "I", x) = some (pre ++ x :: b) := by
  have h0 : ((pre.length + 1 : Nat) : Int) - 1 = (pre.length : Int) := by push_cast; ring
  simp only [applyOne, h0, pyInsert]
  simp only [String.reduceEq, reduceIte, if_true, if_false]
  rw [if_neg (by omega : ¬ ((pre.length : Int) < 0))]
  have hle : (pre.length : Int) ≤ ((pre ++ b).length : Int) := by
    simp [List.length_append]
  have hj : (min (max (pre.length : Int) 0) ((pre ++ b).length : Int)).toNat = pre.length := by
    rw [max_eq_left (by omega), min_eq_left hle]
    exact Int.toNat_natCast _
  rw [hj, List.take_left, List.drop_left]

theorem applyOne_delete (pre : List String) (y : String) (b : List String) (x : String) :
    applyOne (pre ++ y :: b) (pre.length + 1, "D", x) = some (pre ++ b) := by
  have h0 : ((pre.length + 1 : Nat) : Int) - 1 = (pre.length : Int) := by push_cast; ring
  simp only [applyOne, h0, pyDelete]
  simp only [String.reduceEq, reduceIte, if_true, if_false]
  rw [if_neg (by omega : ¬ ((pre.length : Int) < 0))]
  have hlt : (pre.length : Int) < ((pre ++ y :: b).length : Int) := by
    simp [List.length_append]
  rw [if_pos ⟨by omega, hlt⟩]
  have htn : ((pre.length : Int)).toNat = pre.length := Int.toNat_natCast _
  rw [htn, List.take_left]
  have h2 : pre ++ y :: b = (pre ++ [y]) ++ b := by simp
  rw [h2]
  have hlen : pre.length + 1 = (pre ++ [y]).length := by simp
  rw [hlen, List.drop_left]

theorem applyLines_trailingIns (new pre : List String) :
    applyLines pre (trailingIns new (pre.length + 1)) = some (pre ++ new) := by
  induction new generalizing pre with
  | nil => simp [trailingIns, applyLines]
  | cons n ns ih =>
    simp only [trailingIns, applyLines]
    have h1 : applyOne pre (pre.length + 1, "I", n) = some (pre ++ [n]) := by
      have := applyOne_insert pre [] n
      simpa using this
    simp only [h1]
    have h2 := ih (pre ++ [n])
    have hlen : (pre ++ [n]).length + 1 = pre.length + 1 + 1 := by simp
    rw [hlen] at h2
    rw [h2]
    simp

/-- The changes computed between two line lists, applied to the old
line list, produce the new line list.  The accumulator pre is the part
of the document already in its final state; the line number tracked by
get_changes equals its length plus one. -/
theorem applyLines_getChangesAux (old new pre : List String) :
    applyLines (pre ++ old) (getChangesAux old new (pre.length + 1)) = some (pre ++ new) := by
  match old, new with
  | [], new =>
    simpa [getChangesAux] using applyLines_trailingIns new pre
  | o :: os, [] =>
    simp only [getChangesAux, applyLines, applyOne_delete pre o os o]
    simpa using applyLines_getChangesAux os [] pre
  | o :: os, n :: ns =>
    simp only [getChangesAux]
    by_cases he : o = n
    · subst he
      simp only [if_pos rfl]
      have h := applyLines_getChangesAux os ns (pre ++ [o])
      have hlen : (pre ++ [o]).length + 1 = pre.length + 1 + 1 := by simp
      rw [hlen] at h
      simpa using h
    · simp only [if_neg he]
      by_cases hm : o ∉ ns
      · simp only [if_pos hm, applyLines, applyOne_delete pre o os o]
        exact applyLines_getChangesAux os (n :: ns) pre
      · simp only [if_neg hm, applyLines, applyOne_insert pre (o :: os) n]
        have h := applyLines_getChangesAux (o :: os) ns (pre ++ [n])
        have hlen : (pre ++ [n]).length + 1 = pre.length + 1 + 1 := by simp
        rw [hlen] at h
        simpa using h
termination_by old.length + new.length
decreasing_by all_goals (simp only [List.length_cons]; omega)

/-- Claim C1: applying the computed diff to the old text reproduces the
new text, for every pair of texts. -/
theorem apply_get_changes_roundtrip (old new : String) :
    apply_changes old (get_changes old new) = some new := by
  unfold apply_changes get_changes
  have h := applyLines_getChangesAux (splitLines old) (splitLines new) []
  simp only [List.nil_append, List.length_nil, Nat.zero_add] at h
  rw [h]
  simp [joinLines_splitLines]

theorem reverse_changes_nil : reverse_changes [] = [] := rfl

theorem reverse_changes_cons (c : Change) (cs : List Change) :
    reverse_changes (c :: cs) = reverse_changes cs ++ [flipChange c] := by
  simp [reverse_changes]

theorem flipChange_ins (line_num : Nat) (x : String) :
    flipChange (line_num, "I", x) = (line_num, "D", x) := by
  simp only [flipChange]
  rw [if_neg (by decide : ¬ ("I" : String) = "D")]

theorem flipChange_del (line_num : Nat) (x : String) :
    flipChange (line_num, "D", x) = (line_num, "I", x) := by
  simp [flipChange]

theorem applyLines_reverse_trailingIns (new pre : List String) :
    applyLines (pre ++ new) (reverse_changes (trailingIns new (pre.length + 1))) = some pre := by
  induction new generalizing pre with
  | nil => simp [trailingIns, reverse_changes, applyLines]
  | cons n ns ih =>
    simp only [trailingIns, reverse_changes_cons, flipChange_ins]
    have h2 := ih (pre ++ [n])
    have hlen : (pre ++ [n]).length + 1 = pre.length + 1 + 1 := by simp
    rw [hlen] at h2
    rw [applyLines_append]
    have hassoc : pre ++ n :: ns = (pre ++ [n]) ++ ns := by simp
    rw [hassoc, h2]
    simp only [applyLines]
    have hdel : applyOne (pre ++ [n]) (pre.length + 1, "D", n) = some (pre ++ []) :=
      applyOne_delete pre n [] n
    simp only [List.append_nil] at hdel
    simp [hdel, applyLines]

/-- Applying the reversed change list to the new line list restores
the old line list; same accumulator convention as
applyLines_getChangesAux. -/
theorem applyLines_reverse_getChangesAux (old new pre : List String) :
    applyLines (pre ++ new) (reverse_changes (getChangesAux old new (pre.length + 1))) =
      some (pre ++ old) := by
  match old, new with
  | [], new =>
    simpa [getChangesAux] using applyLines_reverse_trailingIns new pre
  | o :: os, [] =>
    simp only [getChangesAux, reverse_changes_cons, flipChange_del]
    rw [applyLines_append]
    have h := applyLines_reverse_getChangesAux os [] pre
    rw [h]
    simp only [applyLines]
    have hins : applyOne (pre ++ os) (pre.length + 1, "I", o) = some (pre ++ o :: os) :=
      applyOne_insert pre os o
    simp [hins, applyLines]
  | o :: os, n :: ns =>
    simp only [getChangesAux]
    by_cases he : o = n
    · subst he
      simp only [if_pos rfl]
      have h := applyLines_reverse_getChangesAux os ns (pre ++ [o])
      have hlen : (pre ++ [o]).length + 1 = pre.length + 1 + 1 := by simp
      rw [hlen] at h
      simpa using h
    · simp only [if_neg he]
      by_cases hm : o ∉ ns
      · simp only [if_pos hm, reverse_changes_cons, flipChange_del]
        rw [applyLines_append]
        have h := applyLines_reverse_getChangesAux os (n :: ns) pre
        rw [h]
        simp only [applyLines]
        have hins : applyOne (pre ++ os) (pre.length + 1, "I", o) = some (pre ++ o :: os) :=
          applyOne_insert pre os o
        simp [hins, applyLines]
      · simp only [if_neg hm, reverse_changes_cons, flipChange_ins]
        rw [applyLines_append]
        have h := applyLines_reverse_getChangesAux (o :: os) ns (pre ++ [n])
        have hlen : (pre ++ [n]).length + 1 = pre.length + 1 + 1 := by simp
        rw [hlen] at h
        have hassoc : pre ++ n :: ns = (pre ++ [n]) ++ ns := by simp
        rw [hassoc, h]
        have hdel : applyOne (pre ++ n :: (o :: os)) (pre.length + 1, "D", n) =
            some (pre ++ o :: os) := applyOne_delete pre n (o :: os) n
        have hassoc2 : (pre ++ [n]) ++ (o :: os) = pre ++ n :: (o :: os) := by simp
        rw [hassoc2]
        simp [hdel, applyLines]
termination_by old.length + new.length
decreasing_by all_goals (simp only [List.length_cons]; omega)

/-- Claim C5 (amended): applying the reversed diff to the NEW text
restores the old text, for every pair of texts. -/
theorem apply_reverse_changes_roundtrip (t t' : String) :
    apply_changes t' (reverse_changes (get_changes t t')) = some t := by
  unfold apply_changes get_changes
  have h := applyLines_reverse_getChangesAux (splitLines t) (splitLines t') []
  simp only [List.nil_append, List.length_nil, Nat.zero_add] at h
  rw [h]
  simp [joinLines_splitLines]

/-- Claim C5 counterexample: with t = "a\nb" and t' = "b", applying the
reversed diff to the OLD text t does not return t (it yields
"a\na\nb"), so the claim as stated fails. -/
theorem apply_reverse_to_old_cex :
    apply_changes "a\nb" (reverse_changes (get_changes "a\nb" "b")) ≠ some "a\nb" := by
  have hch : get_changes "a\nb" "b" = [(1, "D", "a")] := by
    simp [get_changes, splitLines, splitNl, getChangesAux, trailingIns]
  rw [hch]
  decide

theorem to_var_int_ne_nil (n : Nat) : to_var_int n ≠ [] := by
  rw [to_var_int]
  by_cases h : n < 128 <;> simp [h]

theorem from_var_int_to_var_int (n : Nat) (rest : List Nat) :
    from_var_int (to_var_int n ++ rest) = some (n, (to_var_int n).length) := by
  rw [to_var_int]
  by_cases h : n < 128
  · simp [h, from_var_int]
  · simp only [if_neg h, List.cons_append, from_var_int]
    rw [if_neg (by omega : ¬ (n % 128 + 128 < 128))]
    rw [from_var_int_to_var_int (n / 128) rest]
    simp only [List.length_cons]
    have h1 : (n % 128 + 128) % 128 + 128 * (n / 128) = n := by omega
    rw [h1]
termination_by n
decreasing_by exact Nat.div_lt_self (by omega) (by omega)

theorem utf8DecodeList_encodeChar (c : Char) (rest : List Nat) :
    utf8DecodeList (utf8EncodeChar c ++ rest) =
      (utf8DecodeList rest).map (fun cs => c :: cs) := by
  have hv : Nat.isValidChar c.toNat := c.valid
  rcases Nat.lt_or_ge c.toNat 128 with hA | hA
  · have he : utf8EncodeChar c = [c.toNat] := by
      simp only [utf8EncodeChar]
      rw [if_pos hA]
    rw [he]
    simp only [List.cons_append, List.nil_append]
    rw [utf8DecodeList.eq_def]
    simp only []
    have hs : utf8Step c.toNat rest = some (Char.ofNat c.toNat, 0) := by
      simp only [utf8Step]
      rw [if_pos hA]
    rw [hs]
    simp only [List.drop_zero, Char.ofNat_toNat]
  · rcases Nat.lt_or_ge c.toNat 2048 with hB | hB
    · have he : utf8EncodeChar c = [192 + c.toNat / 64, 128 + c.toNat % 64] := by
        simp only [utf8EncodeChar]
        rw [if_neg (by omega), if_pos (by omega)]
      rw [he]
      simp only [List.cons_append, List.nil_append]
      rw [utf8DecodeList.eq_def]
      simp only []
      have hval : utf8Val2 (192 + c.toNat / 64) (128 + c.toNat % 64) = c.toNat := by
        unfold utf8Val2
        omega
      have hcont : IsCont (128 + c.toNat % 64) := ⟨by omega, by omega⟩
      have hs : utf8Step (192 + c.toNat / 64) ((128 + c.toNat % 64) :: rest) =
          some (Char.ofNat c.toNat, 1) := by
        simp only [utf8Step]
        rw [if_neg (by omega), if_neg (by omega), if_pos (by omega), if_pos hcont, hval]
      rw [hs]
      simp only [List.drop_succ_cons, List.drop_zero, Char.ofNat_toNat]
    · rcases Nat.lt_or_ge c.toNat 65536 with hC | hC
      · have he : utf8EncodeChar c =
            [224 + c.toNat / 4096, 128 + c.toNat / 64 % 64, 128 + c.toNat % 64] := by
          simp only [utf8EncodeChar]
          rw [if_neg (by omega), if_neg (by omega), if_pos (by omega)]
        rw [he]
        simp only [List.cons_append, List.nil_append]
        rw [utf8DecodeList.eq_def]
        simp only []
        have hval : utf8Val3 (224 + c.toNat / 4096) (128 + c.toNat / 64 % 64)
            (128 + c.toNat % 64) = c.toNat := by
          unfold utf8Val3
          omega
        have hok : Ok3 (224 + c.toNat / 4096) (128 + c.toNat / 64 % 64) (128 + c.toNat % 64) := by
          refine ⟨⟨by omega, by omega⟩, ⟨by omega, by omega⟩, by rw [hval]; omega, ?_⟩
          rw [hval]
          rcases hv with h1 | ⟨h1, h2⟩
          · exact Or.inl h1
          · exact Or.inr (by omega)
        have hs : utf8Step (224 + c.toNat / 4096)
            ((128 + c.toNat / 64 % 64) :: (128 + c.toNat % 64) :: rest) =
            some (Char.ofNat c.toNat, 2) := by
          simp only [utf8Step]
          rw [if_neg (by omega), if_neg (by omega), if_neg (by omega), if_pos (by omega),
              if_pos hok, hval]
        rw [hs]
        simp only [List.drop_succ_cons, List.drop_zero, Char.ofNat_toNat]
      · have hD : c.toNat < 1114112 := by
          rcases hv with h1 | ⟨h1, h2⟩ <;> omega
        have he : utf8EncodeChar c =
            [240 + c.toNat / 262144, 128 + c.toNat / 4096 % 64,
             128 + c.toNat / 64 % 64, 128 + c.toNat % 64] := by
          simp only [utf8EncodeChar]
          rw [if_neg (by omega), if_neg (by omega), if_neg (by omega)]
        rw [he]
        simp only [List.cons_append, List.nil_append]
        rw [utf8DecodeList.eq_def]
        simp only []
        have hval : utf8Val4 (240 + c.toNat / 262144) (128 + c.toNat / 4096 % 64)
            (128 + c.toNat / 64 % 64) (128 + c.toNat % 64) = c.toNat := by
          unfold utf8Val4
          omega
        have hok : Ok4 (240 + c.toNat / 262144) (128 + c.toNat / 4096 % 64)
            (128 + c.toNat / 64 % 64) (128 + c.toNat % 64) := by
          refine ⟨⟨by omega, by omega⟩, ⟨by omega, by omega⟩, ⟨by omega, by omega⟩,
            by rw [hval]; omega, by rw [hval]; omega⟩
        have hs : utf8Step (240 + c.toNat / 262144)
            ((128 + c.toNat / 4096 % 64) :: (128 + c.toNat / 64 % 64) ::
              (128 + c.toNat % 64) :: rest) = some (Char.ofNat c.toNat, 3) := by
          simp only [utf8Step]
          rw [if_neg (by omega), if_neg (by omega), if_neg (by omega), if_neg (by omega),
              if_pos (by omega), if_pos hok, hval]
        rw [hs]
        simp only [List.drop_succ_cons, List.drop_zero, Char.ofNat_toNat]

theorem utf8DecodeList_encodeList (cs : List Char) (rest : List Nat) :
    utf8DecodeList (utf8EncodeList cs ++ rest) =
      (utf8DecodeList rest).map (fun ds => cs ++ ds) := by
  induction cs with
  | nil =>
    simp only [utf8EncodeList, List.nil_append]
    cases utf8DecodeList rest <;> simp
  | cons c cs ih =>
    simp only [utf8EncodeList, List.append_assoc]
    rw [utf8DecodeList_encodeChar, ih]
    cases utf8DecodeList rest <;> simp

theorem utf8Decode_utf8Encode (s : String) : utf8Decode (utf8Encode s) = some s := by
  unfold utf8Decode utf8Encode
  have h := utf8DecodeList_encodeList s.data []
  simp only [List.append_nil] at h
  rw [h]
  have h0 : utf8DecodeList [] = some [] := by
    rw [utf8DecodeList.eq_def]
  rw [h0]
  simp

theorem get?_append_length_cons (l : List Nat) (x : Nat) (r : List Nat) :
    (l ++ x :: r).get? l.length = some x := by
  induction l with
  | nil => rfl
  | cons a l ih => simpa using ih

theorem decChange_encChange (c : Change) (h : asciiOpB c = true) :
    decChange (encChange c) = some c := by
  obtain ⟨i, op, ln⟩ := c
  unfold asciiOpB at h
  rcases hd : op.data with _ | ⟨a, tl⟩
  · rw [hd] at h
    simp at h
  · rcases tl with _ | ⟨b2, tl2⟩
    · rw [hd] at h
      simp only [decide_eq_true_eq] at h
      have hea : utf8EncodeChar a = [a.toNat] := by
        simp only [utf8EncodeChar]
        rw [if_pos h]
      have henc : encChange (i, op, ln) =
          to_var_int i ++ (a.toNat :: utf8Encode ln) := by
        unfold encChange utf8Encode
        rw [hd]
        simp [utf8EncodeList, hea]
      simp only [decChange, henc]
      rw [from_var_int_to_var_int]
      simp only []
      rw [get?_append_length_cons]
      simp only []
      have hdrop : (to_var_int i ++ (a.toNat :: utf8Encode ln)).drop
          ((to_var_int i).length + 1) = utf8Encode ln := by
        rw [show to_var_int i ++ (a.toNat :: utf8Encode ln) =
            (to_var_int i ++ [a.toNat]) ++ utf8Encode ln by simp]
        rw [show (to_var_int i).length + 1 = (to_var_int i ++ [a.toNat]).length by simp]
        exact List.drop_left _ _
      rw [hdrop, utf8Decode_utf8Encode]
      simp only []
      rw [Char.ofNat_toNat]
      have hop : (⟨[a]⟩ : String) = op := by
        cases op with
        | mk d =>
          simp only at hd
          rw [hd]
      rw [hop]
    · rw [hd] at h
      simp at h

theorem parseOps_cons (c : Change) (body : List Nat)
    (hc : decChange (encChange c) = some c) :
    parseOps (to_var_int (encChange c).length ++ (encChange c ++ body)) =
      match parseOps body with
      | none => none
      | some cs => some (c :: cs) := by
  obtain ⟨b, bs, heq⟩ := List.exists_cons_of_ne_nil (to_var_int_ne_nil (encChange c).length)
  have hfull : to_var_int (encChange c).length ++ (encChange c ++ body) =
      b :: (bs ++ (encChange c ++ body)) := by rw [heq]; rfl
  have hv : from_var_int (b :: (bs ++ (encChange c ++ body))) =
      some ((encChange c).length, (to_var_int (encChange c).length).length) := by
    rw [← hfull]
    exact from_var_int_to_var_int (encChange c).length (encChange c ++ body)
  have hdrop : (b :: (bs ++ (encChange c ++ body))).drop
      (to_var_int (encChange c).length).length = encChange c ++ body := by
    rw [← hfull]
    exact List.drop_left _ _
  rw [hfull, parseOps]
  split
  · next h0 =>
    rw [hv] at h0
    exact absurd h0 (by simp)
  · next size size_b h0 =>
    rw [hv] at h0
    injection h0 with h0
    injection h0 with h1 h2
    subst h1
    subst h2
    rw [hdrop, List.take_left, List.drop_left, hc]

theorem parseOps_encChanges (cs : List Change) (h : ∀ c ∈ cs, asciiOpB c = true) :
    parseOps (encChanges cs) = some cs := by
  induction cs with
  | nil => rw [encChanges, parseOps]
  | cons c cs ih =>
    have hc : asciiOpB c = true := h c (List.mem_cons_self c cs)
    have hrest : ∀ x ∈ cs, asciiOpB x = true := fun x hx => h x (List.mem_cons_of_mem c hx)
    rw [encChanges, List.append_assoc, parseOps_cons c (encChanges cs) (decChange_encChange c hc)]
    rw [ih hrest]

theorem fromBytesBE_toBytesBE4 (d : Nat) (hd : d < 4294967296) :
    fromBytesBE (toBytesBE4 d) = d := by
  simp only [fromBytesBE, toBytesBE4, List.foldl]
  omega

/-- Decoding inverts encoding: the shared core of the round-trip, for
change lists whose operations are single ASCII characters and a
dependency below 2^32. -/
theorem bytes_to_changes_changes_to_bytes (cs : List Change) (d : Nat)
    (hd : d < 4294967296) (hops : ∀ c ∈ cs, asciiOpB c = true) :
    bytes_to_changes (changes_to_bytes cs d) = some (cs, d) := by
  have ht : (toBytesBE4 d ++ encChanges cs).take 4 = toBytesBE4 d := by
    rw [show (4 : Nat) = (toBytesBE4 d).length from rfl]
    exact List.take_left _ _
  have hdr : (toBytesBE4 d ++ encChanges cs).drop 4 = encChanges cs := by
    rw [show (4 : Nat) = (toBytesBE4 d).length from rfl]
    exact List.drop_left _ _
  simp only [bytes_to_changes, changes_to_bytes, ht, hdr]
  rw [parseOps_encChanges cs hops, fromBytesBE_toBytesBE4 d hd]

/-- Claim C7 (amended): for change lists whose operations are single
ASCII characters and a dependency below 2^32, decoding inverts
encoding, and consequently re-encoding the decode of such an encoded
diff preserves its length. -/
theorem bytes_changes_roundtrip (cs : List Change) (d : Nat)
    (hd : d < 4294967296) (hops : ∀ c ∈ cs, asciiOpB c = true) :
    bytes_to_changes (changes_to_bytes cs d) = some (cs, d) ∧
    ∃ p, bytes_to_changes (changes_to_bytes cs d) = some p ∧
      (changes_to_bytes p.1 p.2).length = (changes_to_bytes cs d).length := by
  have h1 := bytes_to_changes_changes_to_bytes cs d hd hops
  exact ⟨h1, ⟨(cs, d), h1, rfl⟩⟩

/-- Claim C7 witness at a concrete input. -/
theorem bytes_changes_roundtrip_witness :
    bytes_to_changes (changes_to_bytes [(2, "I", "ab")] 7) = some ([(2, "I", "ab")], 7) ∧
    ∃ p, bytes_to_changes (changes_to_bytes [(2, "I", "ab")] 7) = some p ∧
      (changes_to_bytes p.1 p.2).length = (changes_to_bytes [(2, "I", "ab")] 7).length :=
  bytes_changes_roundtrip [(2, "I", "ab")] 7 (by omega) (by decide)

/-- A change record that fails to decode makes the whole parse fail. -/
theorem parseOps_cons_fail (c : Change) (body : List Nat)
    (hc : decChange (encChange c) = none) :
    parseOps (to_var_int (encChange c).length ++ (encChange c ++ body)) = none := by
  obtain ⟨b, bs, heq⟩ := List.exists_cons_of_ne_nil (to_var_int_ne_nil (encChange c).length)
  have hfull : to_var_int (encChange c).length ++ (encChange c ++ body) =
      b :: (bs ++ (encChange c ++ body)) := by rw [heq]; rfl
  have hv : from_var_int (b :: (bs ++ (encChange c ++ body))) =
      some ((encChange c).length, (to_var_int (encChange c).length).length) := by
    rw [← hfull]
    exact from_var_int_to_var_int (encChange c).length (encChange c ++ body)
  have hdrop : (b :: (bs ++ (encChange c ++ body))).drop
      (to_var_int (encChange c).length).length = encChange c ++ body := by
    rw [← hfull]
    exact List.drop_left _ _
  rw [hfull, parseOps]
  split
  · rfl
  · next size size_b h0 =>
    rw [hv] at h0
    injection h0 with h0
    injection h0 with h1 h2
    subst h1
    subst h2
    rw [hdrop, List.take_left, hc]

/-- Claim C7 counterexample: the claim as stated quantifies over every
change whose operation is a single character.  For the non-ASCII
operation "é" the encoder writes two UTF-8 bytes but the decoder reads
the operation back with chr() from a single byte, leaving a stray
continuation byte in front of the line content, whose UTF-8 decode
fails; decoding therefore does not invert encoding there. -/
theorem bytes_changes_roundtrip_cex :
    bytes_to_changes (changes_to_bytes [(0, "é", "")] 0) ≠ some ([(0, "é", "")], 0) := by
  have hea : utf8EncodeChar 'é' = [195, 169] := by
    have ht : ('é' : Char).toNat = 233 := rfl
    simp only [utf8EncodeChar, ht]
    norm_num
  have henc : encChange (0, "é", "") = [0, 195, 169] := by
    unfold encChange utf8Encode
    rw [show ("é" : String).data = ['é'] from rfl, show ("" : String).data = [] from rfl]
    simp [utf8EncodeList, hea, to_var_int]
  have hdec : decChange (encChange (0, "é", "")) = none := by
    rw [henc]
    have hfv : from_var_int [0, 195, 169] = some (0, 1) := by
      simp [from_var_int]
    simp only [decChange, hfv]
    have hget : [0, 195, 169].get? 1 = some 195 := rfl
    rw [hget]
    have hdc : utf8Decode ([0, 195, 169].drop 2) = none := by
      rw [show [0, 195, 169].drop 2 = [169] from rfl]
      unfold utf8Decode
      rw [utf8DecodeList.eq_def]
      simp only []
      have hs : utf8Step 169 [] = none := by
        simp only [utf8Step]
        rw [if_neg (by omega), if_pos (by omega)]
      rw [hs]
    rw [hdc]
  have hfail : parseOps (encChanges [(0, "é", "")]) = none := by
    rw [encChanges, List.append_assoc]
    exact parseOps_cons_fail (0, "é", "") (encChanges []) hdec
  have ht : (toBytesBE4 0 ++ encChanges [(0, "é", "")]).drop 4 = encChanges [(0, "é", "")] := by
    rw [show (4 : Nat) = (toBytesBE4 0).length from rfl]
    exact List.drop_left _ _
  simp only [bytes_to_changes, changes_to_bytes, ht, hfail]
  simp

theorem extract_demoChain : extract_version_tree demoChain = some (demoTree, demoAccess) := by
  rfl

/-- Claim C2: on scenario S5 the BFS finds the path [3, 2, 1, 4, 5, 6]
and jump_versions 3 6 returns the reversed changes of versions 3 and 2,
nothing for the pivot 1, and the forward changes of versions 4, 5
and 6, in that order. -/
theorem jump_versions_parent_boundary :
    (extract_version_tree demoChain).map (fun p => dfs p.1 3 6) = some (some [3, 2, 1, 4, 5, 6]) ∧
    jump_versions 3 6 demoChain =
      some (reverse_changes (demoChanges 3) ++ reverse_changes (demoChanges 2) ++
        demoChanges 4 ++ demoChanges 5 ++ demoChanges 6) := by
  have hb : ∀ v, bytes_to_changes (demoBlob v) = some (demoChanges v, demoDep v) := by
    intro v
    refine bytes_to_changes_changes_to_bytes (demoChanges v) (demoDep v)
      (by unfold demoDep; split <;> omega) ?_
    intro c hc
    simp only [demoChanges, List.mem_singleton] at hc
    subst hc
    rfl
  have hdfs : dfs demoTree 3 6 = some [3, 2, 1, 4, 5, 6] := by decide
  constructor
  · rw [extract_demoChain]
    show some (dfs demoTree 3 6) = some (some [3, 2, 1, 4, 5, 6])
    rw [hdfs]
  · simp only [jump_versions]
    rw [extract_demoChain]
    simp only [demoAccess]
    rw [if_neg (by decide : ¬ (3 = 6))]
    try simp only []
    rw [show maxKeyF [(1, demoF1), (2, demoF1), (3, demoF1), (4, demoF2), (5, demoF2),
      (6, demoF2)] = 6 from rfl]
    rw [if_neg (by decide : ¬ ((3 : Nat) > 6 ∨ (6 : Nat) > 6))]
    rw [show dfs demoTree 3 6 = some [3, 2, 1, 4, 5, 6] from hdfs]
    try simp only []
    rw [show monoInc [3, 2, 1, 4, 5, 6] = false from by decide]
    rw [show monoDec [3, 2, 1, 4, 5, 6] = false from by decide]
    simp only [Bool.false_eq_true, if_false]
    rw [show takewhile (fun l => ! monoInc l) [3, 2, 1, 4, 5, 6] = [3, 2] from by decide]
    simp only [List.length_cons, List.length_nil]
    rw [show List.drop (0 + 1 + 1 + 1) [3, 2, 1, 4, 5, 6] = [4, 5, 6] from rfl]
    have hcr : collectRev demoAccess [3, 2] =
        some (reverse_changes (demoChanges 3) ++ (reverse_changes (demoChanges 2) ++ [])) := by
      simp only [collectRev]
      rw [show dictGetF demoAccess 3 = some demoF1 from rfl,
          show dictGetF demoAccess 2 = some demoF1 from rfl]
      try simp only []
      rw [show demoF1.update_blob 3 = demoBlob 3 from rfl,
          show demoF1.update_blob 2 = demoBlob 2 from rfl, hb 3, hb 2]
    have hcf : collectFwd demoAccess [4, 5, 6] =
        some (demoChanges 4 ++ (demoChanges 5 ++ (demoChanges 6 ++ []))) := by
      simp only [collectFwd]
      rw [show dictGetF demoAccess 4 = some demoF2 from rfl,
          show dictGetF demoAccess 5 = some demoF2 from rfl,
          show dictGetF demoAccess 6 = some demoF2 from rfl]
      try simp only []
      rw [show demoF2.update_blob 4 = demoBlob 4 from rfl,
          show demoF2.update_blob 5 = demoBlob 5 from rfl,
          show demoF2.update_blob 6 = demoBlob 6 from rfl, hb 4, hb 5, hb 6]
    rw [show demoAccess = [(1, demoF1), (2, demoF1), (3, demoF1), (4, demoF2), (5, demoF2),
      (6, demoF2)] from rfl] at hcr hcf
    rw [hcr, hcf]
    simp [List.append_assoc]

/-- Claim C6: on a feed whose last packet is a contdas (has_ended),
append_pkt and append_bytes return False and leave the feed state --
file, front_seq, front_mid and the mids cache -- unchanged. -/
theorem append_refused_after_contdas (c : Codec) (st : FeedSt)
    (hend : hasEnded c st = some true) (hseq : st.front_seq + 1 < 4294967296)
    (p : Option Pkt) (payload : List Nat) :
    append_pkt c st p = some (false, st) ∧ append_bytes c st payload = some (false, st) := by
  constructor
  · unfold append_pkt
    rw [hend]
  · unfold append_bytes
    rw [if_neg (by omega)]
    cases c.mkPacket st.fid (toBytesBE4 (st.front_seq + 1)) st.front_mid payload with
    | none => rfl
    | some pkt =>
      unfold append_pkt
      rw [hend]

/-- Claim C6 witness on the concrete ended feed. -/
theorem append_refused_after_contdas_witness :
    append_pkt endCodec endedSt none = some (false, endedSt) ∧
    append_bytes endCodec endedSt [] = some (false, endedSt) :=
  append_refused_after_contdas endCodec endedSt (by decide) (by decide) none []

/-- Claim C10: on a feed with no packets (front_seq equals anchor_seq)
get_contn raises IndexError instead of returning the value None,
because it reads self[-1] before inspecting the packet kind. -/
theorem get_contn_empty_index_error (c : Codec) (st : FeedSt)
    (h : st.front_seq = st.anchor_seq) :
    get_contn c st = .error .indexError := by
  unfold get_contn getitem
  have h1 : (if (-1 : Int) < 0 then (st.front_seq : Int) + (-1) + 1 else (-1)) =
      (st.front_seq : Int) := by norm_num
  rw [h1, if_pos (Or.inr (by omega : (st.front_seq : Int) ≤ (st.anchor_seq : Int)))]

/-- Claim C10 witness on the concrete fresh feed. -/
theorem get_contn_empty_index_error_witness :
    get_contn endCodec freshSt = .error .indexError :=
  get_contn_empty_index_error endCodec freshSt (by decide)

/-- Claim C4 (code bug): on an ended feed append_blob still returns
True when the blob writes succeed, because the source discards the
result of append_pkt; the feed is unchanged (the head packet was never
appended) yet blob files are written and success is reported,
contradicting the spec and the docstring of append_blob. -/
theorem append_blob_ended_returns_true :
    hasEnded endCodec endedSt = some true ∧
    append_blob endCodec endedSt (fun _ => false) [] (List.replicate 250 8) =
      some (true, endedSt, [(List.replicate 20 4, List.replicate 120 3)]) := by
  constructor
  · decide
  · decide

/-- Claim C9: __getitem__ remaps a negative index to
front_seq + seq + 1 and raises IndexError exactly when the remapped
sequence is beyond front_seq or at most anchor_seq; on a non-empty
feed, reading index -1 is reading index front_seq. -/
theorem getitem_remap_bounds (c : Codec) (st : FeedSt) (i : Int)
    (hmids : st.mids.length = st.front_seq - st.anchor_seq + 1)
    (ha : st.anchor_seq ≤ st.front_seq) (hfr : st.front_seq < 4294967296) :
    (getitem c st i = .error .indexError ↔
      ((if i < 0 then (st.front_seq : Int) + i + 1 else i) > (st.front_seq : Int) ∨
       (if i < 0 then (st.front_seq : Int) + i + 1 else i) ≤ (st.anchor_seq : Int))) ∧
    (st.anchor_seq < st.front_seq →
      getitem c st (-1) = getitem c st (st.front_seq : Int)) := by
  constructor
  · simp only [getitem]
    set seq : Int := if i < 0 then (st.front_seq : Int) + i + 1 else i with hseq
    by_cases hb : seq > (st.front_seq : Int) ∨ seq ≤ (st.anchor_seq : Int)
    · rw [if_pos hb]
      exact iff_of_true rfl hb
    · rw [if_neg hb]
      refine iff_of_false ?_ hb
      push_neg at hb
      obtain ⟨hb1, hb2⟩ := hb
      have hnn : 0 ≤ seq := by omega
      have hof : ¬ (seq.toNat ≥ 4294967296) := by omega
      rw [if_neg hof]
      have hrel : (seq - (st.anchor_seq : Int)).toNat - 1 < st.mids.length := by
        rw [hmids]
        omega
      intro hcontra
      rcases hg : st.mids.get? ((seq - (st.anchor_seq : Int)).toNat - 1) with _ | prev
      · rw [List.get?_eq_none] at hg
        omega
      · rw [hg] at hcontra
        simp only [] at hcontra
        split at hcontra
        · exact absurd hcontra (by simp)
        · exact absurd hcontra (by simp)
  · intro hne
    unfold getitem
    have h1 : (if (-1 : Int) < 0 then (st.front_seq : Int) + (-1) + 1 else (-1)) =
        (st.front_seq : Int) := by norm_num
    have h2 : (if (st.front_seq : Int) < 0 then
        (st.front_seq : Int) + (st.front_seq : Int) + 1 else (st.front_seq : Int)) =
        (st.front_seq : Int) := by
      rw [if_neg (by omega)]
    rw [h1, h2]

/-- Claim C9 witness on the concrete ended feed. -/
theorem getitem_remap_bounds_witness :
    getitem endCodec endedSt (-1) = getitem endCodec endedSt ((endedSt.front_seq : Nat) : Int) :=
  (getitem_remap_bounds endCodec endedSt (-1) (by decide) (by decide) (by decide)).2 (by decide)

/-- Claim C8: a successful append_pkt writes exactly one 128-byte frame
(8 reserved zero bytes and the 120-byte wire) at the end of the file,
and the header rewrite replaces only bytes [104..128) with the new
front_seq and front_mid, so the file keeps every existing frame and
satisfies file_size = 128 * (front_seq - anchor_seq + 1). -/
theorem append_pkt_preserves_size_invariant (c : Codec) (st : FeedSt) (pkt : Pkt)
    (st2 : FeedSt)
    (hinv : st.file.length = 128 * (st.front_seq - st.anchor_seq + 1))
    (ha : st.anchor_seq ≤ st.front_seq)
    (h : append_pkt c st (some pkt) = some (true, st2)) :
    st2.front_seq = st.front_seq + 1 ∧
    st2.file = st.file.take 104 ++ (toBytesBE4 st2.front_seq ++ pkt.mid) ++
      (st.file.drop 128 ++ (List.replicate 8 0 ++ pkt.wire)) ∧
    st2.file.length = 128 * (st2.front_seq - st.anchor_seq + 1) := by
  have hflen : 128 ≤ st.file.length := by
    rw [hinv]
    have : 1 ≤ st.front_seq - st.anchor_seq + 1 := by omega
    omega
  unfold append_pkt at h
  rcases he : hasEnded c st with _ | b
  · rw [he] at h
    exact absurd h (by simp)
  · rw [he] at h
    cases b with
    | true =>
      simp only [] at h
      exact Bool.noConfusion (congrArg Prod.fst (Option.some.inj h))
    | false =>
      simp only [] at h
      by_cases hw : (List.replicate 8 0 ++ pkt.wire).length ≠ 128
      · rw [if_pos hw] at h
        exact absurd h (by simp)
      · rw [if_neg hw] at h
        push_neg at hw
        simp only [updateHeader] at h
        by_cases ho : st.front_seq + 1 ≥ 4294967296
        · rw [if_pos ho] at h
          exact absurd h (by simp)
        · rw [if_neg ho] at h
          by_cases hm : (toBytesBE4 (st.front_seq + 1) ++ pkt.mid).length ≠ 24
          · rw [if_pos hm] at h
            exact absurd h (by simp)
          · rw [if_neg hm] at h
            simp only [] at h
            have hst2 := congrArg Prod.snd (Option.some.inj h)
            subst hst2
            refine ⟨rfl, ?_, ?_⟩
            · show (st.file ++ (List.replicate 8 0 ++ pkt.wire)).take 104 ++
                  (toBytesBE4 (st.front_seq + 1) ++ pkt.mid) ++
                  (st.file ++ (List.replicate 8 0 ++ pkt.wire)).drop 128 = _
              rw [List.take_append_eq_append_take, List.drop_append_eq_append_drop]
              rw [show 104 - st.file.length = 0 by omega,
                  show 128 - st.file.length = 0 by omega]
              simp
            · push_neg at hm
              simp only [List.length_append, List.length_take, List.length_drop,
                List.length_replicate] at hm hw ⊢
              omega

/-- Claim C8 witness: appending a concrete packet to the fresh feed. -/
theorem append_pkt_preserves_size_invariant_witness :
    freshSt2.front_seq = freshSt.front_seq + 1 ∧
    freshSt2.file = freshSt.file.take 104 ++ (toBytesBE4 freshSt2.front_seq ++ freshPkt.mid) ++
      (freshSt.file.drop 128 ++ (List.replicate 8 0 ++ freshPkt.wire)) ∧
    freshSt2.file.length = 128 * (freshSt2.front_seq - freshSt.anchor_seq + 1) :=
  append_pkt_preserves_size_invariant endCodec freshSt freshPkt freshSt2
    (by decide) (by decide) (by decide)

theorem collectBlobs_of_chain (store : List Nat → Option BlobRec) (ptr : List Nat)
    (blobs : List BlobRec) (hchain : ChainFrom store ptr blobs) :
    ∀ fuel, blobs.length < fuel → collectBlobs store fuel ptr = some blobs := by
  induction hchain with
  | nil =>
    intro fuel hf
    match fuel, hf with
    | f + 1, _ =>
      unfold collectBlobs
      rw [if_pos rfl]
  | cons hne hst _ ih =>
    intro fuel hf
    match fuel, hf with
    | f + 1, hf =>
      unfold collectBlobs
      rw [if_neg hne, hst]
      simp only [List.length_cons] at hf
      try simp only []
      rw [ih f (by omega)]

theorem verifyLoop_eq (size : Nat) (blobs : List BlobRec) :
    ∀ (ptr content : List Nat),
      verifyLoop size ptr content blobs =
        if ptrsMatch ptr blobs then some ((content ++ blobsPayload blobs).take size)
        else none := by
  induction blobs with
  | nil =>
    intro ptr content
    simp [verifyLoop, ptrsMatch, blobsPayload]
  | cons b bs ih =>
    intro ptr content
    unfold verifyLoop ptrsMatch
    by_cases hp : ptr = b.signature
    · rw [if_pos hp, ih]
      have hb : (ptr == b.signature) = true := by
        rw [beq_iff_eq]
        exact hp
      rw [hb]
      simp only [Bool.true_and, blobsPayload, List.append_assoc]
    · rw [if_neg hp]
      have hb : (ptr == b.signature) = false := by
        rw [beq_eq_false_iff_ne]
        exact hp
      rw [hb]
      simp only [Bool.false_and, Bool.false_eq_true, if_false]

/-- Claim C3: for a chain20 head packet with (size, vlen) the varint
decode of its 48-byte payload, whose blob chain (followed from
payload[28..48) to the all-zero pointer) exists in the store,
get_blob_chain returns exactly the first size bytes of payload[vlen..28)
concatenated with the blob payloads when every followed pointer equals
the signature of the blob it reaches, and the value None -- never
partial content -- when some pointer differs. -/
theorem get_blob_chain_correct (store : List Nat → Option BlobRec) (pkt : Pkt)
    (size vlen : Nat) (blobs : List BlobRec) (fuel : Nat)
    (htype : pkt.pkt_type = PacketType.chain20)
    (hlen : pkt.payload.length = 48)
    (hvar : from_var_int pkt.payload = some (size, vlen))
    (hchain : ChainFrom store (pkt.payload.drop 28) blobs)
    (hfuel : blobs.length < fuel) :
    get_blob_chain store fuel pkt =
      some (if ptrsMatch (pkt.payload.drop 28) blobs
        then some (((pkt.payload.take 28).drop vlen ++ blobsPayload blobs).take size)
        else none) := by
  unfold get_blob_chain
  rw [if_neg (by simp [htype])]
  rw [show pkt.payload.length - 20 = 28 by omega]
  rw [collectBlobs_of_chain store (pkt.payload.drop 28) blobs hchain fuel hfuel]
  try simp only []
  unfold verify_chain
  rw [hvar]
  try simp only []
  rw [show pkt.payload.length - 20 = 28 by omega]
  rw [verifyLoop_eq]

/-- Claim C3 witness: a chain20 head packet with size 5, an empty blob
chain (the head pointer is already all-zero) and an empty store. -/
theorem get_blob_chain_correct_witness :
    get_blob_chain (fun _ => none) 1 chainPkt =
      some (if ptrsMatch (chainPkt.payload.drop 28) []
        then some (((chainPkt.payload.take 28).drop 1 ++ blobsPayload []).take 5)
        else none) :=
  get_blob_chain_correct (fun _ => none) chainPkt 5 1 [] 1 (by decide) (by decide) (by decide)
    (by rw [show chainPkt.payload.drop 28 = List.replicate 20 0 from rfl]
        exact ChainFrom.nil)
    (by decide)

end TinySSB
